import Mathlib

/-! DFA execution engine (`src/script.js`)

A shallow embedding of the `DFA` class of `src/script.js` and of the
`challenges` array, followed by theorems about `DFA.processString`.

Modelling conventions.

* A JavaScript string is a Lean `String`; `for (const symbol of inputString)`
  walks the string code point by code point, which is the list `inputString.data`,
  and each `symbol` is the one-character string `c.toString`.  The length of an
  input is its number of symbols, `String.length`.
* A JavaScript object used as a mapping (`transitions` and its inner mappings) is
  a plain object, modelled by the list of its own properties, key first; reading
  a property is `List.lookup`, and a missing property (`undefined`) is `none`.
  Properties inherited from `Object.prototype` have names longer than one
  character, so they never answer the inner read `stateTransitions[symbol]`,
  whose key is a single code point.
* `Array.prototype.includes` on strings is `List.contains`.
* `!next` is true for `undefined` and for the empty string, the only falsy
  values a string-valued mapping can hold.
-/

namespace DFAAutomata

/-- A JavaScript object read as a mapping from property names to values. -/
abbrev JsObject (α : Type) := List (String × α)

/-- The fields stored by the constructor of `class DFA`. -/
structure DFA where
  states : List String
  alphabet : List String
  transitions : JsObject (JsObject String)
  startState : String
  finalStates : List String
  deriving DecidableEq

/-- The object literal returned by `processString`. -/
structure ExecutionResult where
  accepted : Bool
  trace : List String
  message : String
  deriving DecidableEq

/-- JavaScript truthiness of the value read from the inner mapping:
`undefined` and `""` are falsy. -/
def truthy : Option String → Bool
  | none => false
  | some t => t != ""

/-- The two reads of the loop body: `(this.transitions[currentState] || {})[symbol]`. -/
def DFA.lookupNext (D : DFA) (currentState symbol : String) : Option String :=
  let stateTransitions := (D.transitions.lookup currentState).getD []
  stateTransitions.lookup symbol

/-- The `for … of` loop of `processString` together with the code after it,
started with the given `currentState` and `trace` on the remaining symbols. -/
def DFA.loop (D : DFA) (currentState : String) (trace : List String) :
    List Char → ExecutionResult
  | [] =>
    let accepted := D.finalStates.contains currentState
    { accepted := accepted
      trace := trace
      message := if accepted then "Accepted" else "Rejected" }
  | c :: rest =>
    let symbol := c.toString
    if !D.alphabet.contains symbol then
      { accepted := false
        trace := trace
        message := "Invalid symbol: " ++ symbol }
    else
      let next := D.lookupNext currentState symbol
      if !truthy next then
        { accepted := false
          trace := trace
          message := "No transition from " ++ currentState ++ " on " ++ symbol }
      else
        D.loop (next.getD "") (trace ++ [next.getD ""]) rest

/-- The method `DFA.processString(inputString)`. -/
def DFA.processString (D : DFA) (inputString : String) : ExecutionResult :=
  D.loop D.startState [D.startState] inputString.data

/-- The `dfa` field of the "Even Ones" entry of `challenges`, as passed to the
constructor by `loadChallenge`. -/
def evenOnes : DFA where
  states := ["q0", "q1"]
  alphabet := ["0", "1"]
  transitions := [("q0", [("0", "q0"), ("1", "q1")]), ("q1", [("0", "q1"), ("1", "q0")])]
  startState := "q0"
  finalStates := ["q0"]

/-- A definition whose only transition leads to the state named by the empty
string, which is also its only final state. -/
def emptyTarget : DFA where
  states := ["q0", ""]
  alphabet := ["a"]
  transitions := [("q0", [("a", "")])]
  startState := "q0"
  finalStates := [""]

/-- A definition with a partial table: `q0` has no entry for "b" and `q1` has
no inner mapping at all. -/
def partialTable : DFA where
  states := ["q0", "q1"]
  alphabet := ["a", "b"]
  transitions := [("q0", [("a", "q1")])]
  startState := "q0"
  finalStates := ["q1"]

/-- The message of a result is one of the two verdicts of a run that consumed
its whole input. -/
def noFailure (r : ExecutionResult) : Prop :=
  r.message = "Accepted" ∨ r.message = "Rejected"

instance (r : ExecutionResult) : Decidable (noFailure r) := by
  unfold noFailure; infer_instance

/-- The message is an "Invalid symbol: …" or a "No transition from …" message. -/
def failureMessage (m : String) : Prop :=
  "Invalid symbol: ".data <+: m.data ∨ "No transition from ".data <+: m.data

instance (m : String) : Decidable (failureMessage m) := by
  unfold failureMessage; infer_instance

/-- The entry of the transition table for a (state, symbol) pair, in the words
of the specification: the state has an inner mapping and that mapping has the
symbol as a key. -/
def entry (D : DFA) (state symbol : String) : Option String :=
  match D.transitions.lookup state with
  | none => none
  | some inner => inner.lookup symbol

/-- Stepping through the input as the specification describes acceptance: every
symbol is a member of the alphabet and the table has an entry for every
(current state, symbol) pair met; the value is the list of the targets met. -/
def specTargets (D : DFA) : String → List Char → Option (List String)
  | _, [] => some []
  | q, c :: rest =>
    if c.toString ∈ D.alphabet then
      match entry D q c.toString with
      | none => none
      | some t => (specTargets D t rest).map (t :: ·)
    else none

/-- The specification's acceptance: the whole input is consumed and the state
reached after the last symbol is a final state. -/
def specAccepts (D : DFA) (s : String) : Prop :=
  ∃ targets, specTargets D D.startState s.data = some targets ∧
    (D.startState :: targets).getLast? ∈ D.finalStates.map some

instance (D : DFA) (s : String) : Decidable (specAccepts D s) :=
  match h : specTargets D D.startState s.data with
  | none => isFalse (by rintro ⟨t, ht, -⟩; rw [h] at ht; cases ht)
  | some t =>
    if hf : (D.startState :: t).getLast? ∈ D.finalStates.map some then
      isTrue ⟨t, h, hf⟩
    else isFalse (by rintro ⟨t2, ht, hf2⟩; rw [h] at ht; cases ht; exact hf hf2)

/-! ## Messages -/

theorem invalid_ne_verdict (x : String) :
    "Invalid symbol: " ++ x ≠ "Accepted" ∧ "Invalid symbol: " ++ x ≠ "Rejected" := by
  constructor <;> intro h <;> have := congrArg String.data h <;> simp at this

theorem noTransition_ne_verdict (x y : String) :
    "No transition from " ++ x ++ " on " ++ y ≠ "Accepted" ∧
    "No transition from " ++ x ++ " on " ++ y ≠ "Rejected" := by
  constructor <;> intro h <;> have := congrArg String.data h <;> simp at this

theorem failureMessage_invalid (x : String) : failureMessage ("Invalid symbol: " ++ x) :=
  Or.inl (by simp)

theorem failureMessage_noTransition (x y : String) :
    failureMessage ("No transition from " ++ x ++ " on " ++ y) :=
  Or.inr (by simp [String.append_assoc])

theorem not_failureMessage_verdict :
    ¬ failureMessage "Accepted" ∧ ¬ failureMessage "Rejected" := by
  constructor <;> decide

theorem data_snoc (p r : String) (c : Char) :
    (p ++ c.toString ++ r).data = p.data ++ c :: r.data := by
  simp [Char.toString, String.singleton]

/-! ## The loop -/

theorem loop_nil (D : DFA) (cur : String) (trace : List String) :
    D.loop cur trace [] =
      ⟨D.finalStates.contains cur, trace,
        if D.finalStates.contains cur then "Accepted" else "Rejected"⟩ := rfl

theorem noFailure_loop_nil (D : DFA) (cur : String) (trace : List String) :
    noFailure (D.loop cur trace []) := by
  rw [loop_nil]
  unfold noFailure
  cases D.finalStates.contains cur <;> simp

/-- The three ways one iteration of the loop can go. -/
theorem loop_cons_cases (D : DFA) (cur : String) (trace : List String) (c : Char)
    (rest : List Char) :
    (c.toString ∉ D.alphabet ∧
      D.loop cur trace (c :: rest) = ⟨false, trace, "Invalid symbol: " ++ c.toString⟩) ∨
    (c.toString ∈ D.alphabet ∧ truthy (D.lookupNext cur c.toString) = false ∧
      D.loop cur trace (c :: rest) =
        ⟨false, trace, "No transition from " ++ cur ++ " on " ++ c.toString⟩) ∨
    (∃ n, c.toString ∈ D.alphabet ∧ D.lookupNext cur c.toString = some n ∧ n ≠ "" ∧
      D.loop cur trace (c :: rest) = D.loop n (trace ++ [n]) rest) := by
  by_cases ha : c.toString ∈ D.alphabet
  · right
    cases hn : D.lookupNext cur c.toString with
    | none =>
      left
      refine ⟨ha, rfl, ?_⟩
      simp [DFA.loop, ha, hn, truthy]
    | some n =>
      by_cases he : n = ""
      · left
        refine ⟨ha, by simp [truthy, he], ?_⟩
        simp [DFA.loop, ha, hn, truthy, he]
      · right
        refine ⟨n, ha, rfl, he, ?_⟩
        simp [DFA.loop, ha, hn, truthy, he]
  · left
    refine ⟨ha, ?_⟩
    simp [DFA.loop, ha]

theorem not_noFailure_invalid (tr : List String) (x : String) :
    ¬ noFailure ⟨false, tr, "Invalid symbol: " ++ x⟩ := by
  have h := invalid_ne_verdict x
  simp [noFailure, h.1, h.2]

theorem not_noFailure_noTransition (tr : List String) (x y : String) :
    ¬ noFailure ⟨false, tr, "No transition from " ++ x ++ " on " ++ y⟩ := by
  have h := noTransition_ne_verdict x y
  simp [noFailure, h.1, h.2]

/-- The returned trace extends the starting trace by at most one state per
symbol, by exactly one per symbol when and only when the run reports a verdict,
and a verdict is never a failure message. -/
theorem loop_trace (D : DFA) (syms : List Char) :
    ∀ (cur : String) (trace : List String), ∃ ext,
      (D.loop cur trace syms).trace = trace ++ ext ∧ ext.length ≤ syms.length ∧
      (ext.length = syms.length ↔ noFailure (D.loop cur trace syms)) ∧
      (noFailure (D.loop cur trace syms) ↔ ¬ failureMessage (D.loop cur trace syms).message) := by
  induction syms with
  | nil =>
    intro cur trace
    refine ⟨[], by simp [loop_nil], le_refl _, by simp [noFailure_loop_nil], ?_⟩
    have h := noFailure_loop_nil D cur trace
    simp only [h, true_iff]
    rcases h with h | h <;> rw [h]
    · exact not_failureMessage_verdict.1
    · exact not_failureMessage_verdict.2
  | cons c rest ih =>
    intro cur trace
    rcases loop_cons_cases D cur trace c rest with ⟨-, h⟩ | ⟨-, -, h⟩ | ⟨n, -, -, -, h⟩
    · rw [h]
      refine ⟨[], by simp, by simp, ?_, ?_⟩
      · simp [not_noFailure_invalid]
      · simp [not_noFailure_invalid, failureMessage_invalid]
    · rw [h]
      refine ⟨[], by simp, by simp, ?_, ?_⟩
      · simp [not_noFailure_noTransition]
      · simp [not_noFailure_noTransition, failureMessage_noTransition]
    · rw [h]
      obtain ⟨ext, h1, h2, h3, h4⟩ := ih n (trace ++ [n])
      refine ⟨n :: ext, by simp [h1], by simpa using h2, ?_, h4⟩
      rw [← h3]
      simp

/-- A run that halts on a failure ignores whatever follows; a run that reports a
verdict hands its final state and its trace to the run over what follows. -/
theorem loop_append (D : DFA) (p : List Char) :
    ∀ (cur : String) (trace : List String),
      (¬ noFailure (D.loop cur trace p) ∧
        ∀ rest, D.loop cur trace (p ++ rest) = D.loop cur trace p) ∨
      (noFailure (D.loop cur trace p) ∧ ∃ q ext,
        D.loop cur trace p = D.loop q (trace ++ ext) [] ∧
        (cur :: ext).getLast? = some q ∧
        ∀ rest, D.loop cur trace (p ++ rest) = D.loop q (trace ++ ext) rest) := by
  induction p with
  | nil =>
    intro cur trace
    exact Or.inr ⟨noFailure_loop_nil D cur trace, cur, [], by simp, by simp, by simp⟩
  | cons c p ih =>
    intro cur trace
    rcases loop_cons_cases D cur trace c p with ⟨ha, h⟩ | ⟨ha, ht, h⟩ | ⟨n, ha, hn, he, h⟩
    · left
      rw [h]
      refine ⟨not_noFailure_invalid _ _, fun rest => ?_⟩
      rcases loop_cons_cases D cur trace c (p ++ rest) with ⟨-, h2⟩ | ⟨ha2, -⟩ | ⟨_, ha2, -⟩
      · simpa using h2
      · exact absurd ha2 ha
      · exact absurd ha2 ha
    · left
      rw [h]
      refine ⟨not_noFailure_noTransition _ _ _, fun rest => ?_⟩
      rcases loop_cons_cases D cur trace c (p ++ rest) with
        ⟨ha2, -⟩ | ⟨-, -, h2⟩ | ⟨m, -, hm, hme, -⟩
      · exact absurd ha ha2
      · simpa using h2
      · rw [hm] at ht
        simp [truthy, hme] at ht
    · have hstep : ∀ rest, D.loop cur trace (c :: p ++ rest) =
          D.loop n (trace ++ [n]) (p ++ rest) := by
        intro rest
        rcases loop_cons_cases D cur trace c (p ++ rest) with
          ⟨ha2, -⟩ | ⟨-, ht2, -⟩ | ⟨m, -, hm, -, h2⟩
        · exact absurd ha ha2
        · rw [hn] at ht2
          simp [truthy, he] at ht2
        · rw [hn] at hm
          cases hm
          simpa using h2
      rw [h]
      rcases ih n (trace ++ [n]) with ⟨hf, hr⟩ | ⟨hf, q, ext, h1, h2, h3⟩
      · exact Or.inl ⟨hf, fun rest => by rw [hstep, hr]⟩
      · refine Or.inr ⟨hf, q, n :: ext, by simpa using h1, ?_, fun rest => ?_⟩
        · simpa [List.getLast?_cons_cons] using h2
        · rw [hstep, h3]
          simp

theorem loop_accepted_noFailure (D : DFA) (syms : List Char) :
    ∀ (cur : String) (trace : List String),
      (D.loop cur trace syms).accepted = true → noFailure (D.loop cur trace syms) := by
  induction syms with
  | nil => exact fun cur trace _ => noFailure_loop_nil D cur trace
  | cons c rest ih =>
    intro cur trace
    rcases loop_cons_cases D cur trace c rest with ⟨-, h⟩ | ⟨-, -, h⟩ | ⟨n, -, -, -, h⟩
    · simp [h]
    · simp [h]
    · rw [h]
      exact ih n _

theorem entry_eq_lookupNext (D : DFA) (q c : String) : entry D q c = D.lookupNext q c := by
  unfold entry DFA.lookupNext
  cases D.transitions.lookup q <;> simp

/-- Along a path of table entries none of which is the empty string, the loop
consumes every symbol and appends exactly the entries. -/
theorem loop_of_specTargets (D : DFA) (syms : List Char) :
    ∀ (cur : String) (trace targets : List String),
      specTargets D cur syms = some targets → "" ∉ targets →
      ∃ q, (cur :: targets).getLast? = some q ∧
        D.loop cur trace syms = D.loop q (trace ++ targets) [] := by
  induction syms with
  | nil =>
    intro cur trace targets h _
    simp [specTargets] at h
    subst h
    exact ⟨cur, by simp, by simp⟩
  | cons c rest ih =>
    intro cur trace targets h hne
    simp only [specTargets] at h
    split at h
    next ha =>
      rw [entry_eq_lookupNext] at h
      split at h
      next => cases h
      next t ht =>
        cases hr : specTargets D t rest with
        | none => simp [hr] at h
        | some ts =>
          simp [hr] at h
          subst h
          have hts : "" ∉ ts := fun hm => hne (List.mem_cons_of_mem _ hm)
          have ht0 : t ≠ "" := fun he => hne (by simp [he])
          obtain ⟨q, hq, hl⟩ := ih t (trace ++ [t]) ts hr hts
          refine ⟨q, by simpa [List.getLast?_cons_cons] using hq, ?_⟩
          rcases loop_cons_cases D cur trace c rest with
            ⟨ha2, -⟩ | ⟨-, ht2, -⟩ | ⟨m, -, hm, -, h2⟩
          · exact absurd ha ha2
          · rw [ht] at ht2
            simp [truthy, ht0] at ht2
          · rw [ht] at hm
            cases hm
            rw [h2, hl]
            simp
    next => cases h

/-- A run that reports a verdict followed a path of table entries, none of them
the empty string, and its trace is the starting trace followed by that path. -/
theorem specTargets_of_noFailure (D : DFA) (syms : List Char) :
    ∀ (cur : String) (trace : List String), noFailure (D.loop cur trace syms) →
      ∃ targets, specTargets D cur syms = some targets ∧ "" ∉ targets ∧
        (D.loop cur trace syms).trace = trace ++ targets := by
  induction syms with
  | nil =>
    intro cur trace _
    exact ⟨[], by simp [specTargets], by simp, by simp [loop_nil]⟩
  | cons c rest ih =>
    intro cur trace hnf
    rcases loop_cons_cases D cur trace c rest with ⟨-, h⟩ | ⟨-, -, h⟩ | ⟨n, ha, hn, he, h⟩
    · rw [h] at hnf
      exact absurd hnf (not_noFailure_invalid _ _)
    · rw [h] at hnf
      exact absurd hnf (not_noFailure_noTransition _ _ _)
    · rw [h] at hnf ⊢
      obtain ⟨ts, h1, h2, h3⟩ := ih n (trace ++ [n]) hnf
      refine ⟨n :: ts, ?_, ?_, by simp [h3]⟩
      · simp [specTargets, ha, entry_eq_lookupNext, hn, h1]
      · simp [Ne.symm he, h2]

/-- One step of the "Even Ones" automaton on each of its four (state, symbol) pairs. -/
theorem evenOnes_step (trace : List String) (rest : List Char) :
    evenOnes.loop "q0" trace ('0' :: rest) = evenOnes.loop "q0" (trace ++ ["q0"]) rest ∧
    evenOnes.loop "q0" trace ('1' :: rest) = evenOnes.loop "q1" (trace ++ ["q1"]) rest ∧
    evenOnes.loop "q1" trace ('0' :: rest) = evenOnes.loop "q1" (trace ++ ["q1"]) rest ∧
    evenOnes.loop "q1" trace ('1' :: rest) = evenOnes.loop "q0" (trace ++ ["q0"]) rest :=
  ⟨rfl, rfl, rfl, rfl⟩

theorem evenOnes_loop (syms : List Char) (h : ∀ c ∈ syms, c = '0' ∨ c = '1') :
    ∀ trace : List String,
      ((evenOnes.loop "q0" trace syms).accepted = true ↔ Even (syms.count '1')) ∧
      ((evenOnes.loop "q1" trace syms).accepted = true ↔ ¬ Even (syms.count '1')) := by
  induction syms with
  | nil =>
    intro trace
    constructor
    · simp [loop_nil, evenOnes]
    · simp [loop_nil, evenOnes]
  | cons c rest ih =>
    intro trace
    have ih2 := ih (fun x hx => h x (List.mem_cons_of_mem _ hx))
    obtain ⟨s1, s2, s3, s4⟩ := evenOnes_step trace rest
    rcases h c (List.mem_cons_self _ _) with hc | hc
    · subst hc
      rw [s1, s3]
      have : List.count '1' ('0' :: rest) = List.count '1' rest := by
        rw [List.count_cons_of_ne (by decide)]
      rw [this]
      exact ⟨(ih2 _).1, (ih2 _).2⟩
    · subst hc
      rw [s2, s4, List.count_cons_self, Nat.even_add_one]
      exact ⟨(ih2 _).2, by rw [(ih2 _).1, not_not]⟩

/-! ## Acceptance against the specification's stepping -/

/-- Whenever `processString` accepts, the input is accepted in the
specification's sense. -/
theorem accepted_imp_specAccepts (D : DFA) (s : String)
    (h : (D.processString s).accepted = true) : specAccepts D s := by
  unfold DFA.processString at h
  have hnf := loop_accepted_noFailure D s.data _ _ h
  obtain ⟨targets, h1, h2, -⟩ := specTargets_of_noFailure D s.data _ _ hnf
  obtain ⟨q, hq, hl⟩ := loop_of_specTargets D s.data D.startState [D.startState] targets h1 h2
  refine ⟨targets, h1, ?_⟩
  rw [hl, loop_nil] at h
  rw [hq]
  simpa using h

/-- When the path of table entries followed by the input never meets the empty
string, `processString` consumes the whole input: the trace is the start state
followed by the entries, and the verdict is membership of the last state in
`finalStates`. -/
theorem processString_of_specTargets (D : DFA) (s : String) (targets : List String)
    (h : specTargets D D.startState s.data = some targets) (hne : "" ∉ targets) :
    ∃ q, (D.startState :: targets).getLast? = some q ∧
      D.processString s = ⟨D.finalStates.contains q, D.startState :: targets,
        if D.finalStates.contains q then "Accepted" else "Rejected"⟩ := by
  obtain ⟨q, hq, hl⟩ := loop_of_specTargets D s.data D.startState [D.startState] targets h hne
  exact ⟨q, hq, by simp [DFA.processString, hl, loop_nil]⟩

/-- What `specTargets` returns is the stepping of the specification: one target
per symbol, each symbol in the alphabet, and each target the table entry for the
state before it and the symbol read. -/
theorem specTargets_entries (D : DFA) (syms : List Char) :
    ∀ (q : String) (targets : List String), specTargets D q syms = some targets →
      targets.length = syms.length ∧
      ∀ (i : Nat) (c : Char), syms[i]? = some c →
        ∃ st t, (q :: targets)[i]? = some st ∧ targets[i]? = some t ∧
          c.toString ∈ D.alphabet ∧ entry D st c.toString = some t := by
  induction syms with
  | nil =>
    intro q targets h
    simp [specTargets] at h
    subst h
    simp
  | cons c0 rest ih =>
    intro q targets h
    simp only [specTargets] at h
    split at h
    next ha =>
      split at h
      next => cases h
      next t ht =>
        cases hr : specTargets D t rest with
        | none => simp [hr] at h
        | some ts =>
          simp [hr] at h
          subst h
          obtain ⟨hlen, hidx⟩ := ih t ts hr
          refine ⟨by simp [hlen], ?_⟩
          intro i c hc
          cases i with
          | zero =>
            simp at hc
            subst hc
            exact ⟨q, t, by simp, by simp, ha, ht⟩
          | succ j =>
            simp at hc
            obtain ⟨st, t2, h1, h2, h3, h4⟩ := hidx j c hc
            exact ⟨st, t2, by simpa using h1, by simpa using h2, h3, h4⟩
    next => cases h

/-- When no table entry met along the input is the empty string, `processString`
accepts exactly the inputs the specification accepts. -/
theorem accepted_iff_specAccepts (D : DFA) (s : String)
    (hne : ∀ targets, specTargets D D.startState s.data = some targets → "" ∉ targets) :
    (D.processString s).accepted = true ↔ specAccepts D s := by
  refine ⟨accepted_imp_specAccepts D s, ?_⟩
  rintro ⟨targets, h, hf⟩
  obtain ⟨q, hq, hr⟩ := processString_of_specTargets D s targets h (hne targets h)
  rw [hr]
  rw [hq] at hf
  simpa using hf

/-! ## The claims -/

/-- C1, evaluated where the code departs from it: on the definition `emptyTarget`
and the input "a" every symbol is in the alphabet, the table has an entry for the
one (state, symbol) pair met, and the state reached is a final state, yet
`processString` halts with "No transition from q0 on a" and `accepted` false. -/
theorem emptyTarget_specAccepts_not_accepted :
    specAccepts emptyTarget "a" ∧
    (emptyTarget.processString "a").accepted = false ∧
    (emptyTarget.processString "a").message = "No transition from q0 on a" := by
  decide

/-- C2, evaluated where the code departs from it: on the definition `emptyTarget`
the table gives the target "" for the pair (q0, a) and "a" is in the alphabet, yet
`processString "a"` halts early: the trace keeps its single element and the
message is "No transition from q0 on a". -/
theorem emptyTarget_entry_halts :
    "a" ∈ emptyTarget.alphabet ∧ entry emptyTarget "q0" "a" = some "" ∧
    specTargets emptyTarget emptyTarget.startState "a".data = some [""] ∧
    emptyTarget.processString "a" = ⟨false, ["q0"], "No transition from q0 on a"⟩ ∧
    (emptyTarget.processString "a").trace.length ≠ "a".length + 1 := by
  decide

/-- C3: when the run over the prefix `p` meets no failure and `c` is not in the
alphabet, `processString (p ++ c ++ r)` returns `accepted = false`, the message
"Invalid symbol: " followed by `c`, and the trace of the run over `p` alone,
whatever the transition table and the remainder `r` are. -/
theorem processString_invalid_symbol (D : DFA) (p r : String) (c : Char)
    (hp : noFailure (D.processString p)) (hc : c.toString ∉ D.alphabet) :
    D.processString (p ++ c.toString ++ r) =
      ⟨false, (D.processString p).trace, "Invalid symbol: " ++ c.toString⟩ := by
  unfold DFA.processString at *
  rw [data_snoc]
  rcases loop_append D p.data D.startState [D.startState] with ⟨hf, -⟩ | ⟨-, q, ext, h1, -, h3⟩
  · exact absurd hp hf
  · rw [h3, h1, loop_nil]
    rcases loop_cons_cases D q ([D.startState] ++ ext) c r.data with
      ⟨-, h⟩ | ⟨ha, -⟩ | ⟨_, ha, -⟩
    · exact h
    · exact absurd ha hc
    · exact absurd ha hc

/-- C4: when the run over the prefix `p` meets no failure and ends in state `q`,
`c` is in the alphabet and the table has no entry for `(q, c)` (no inner mapping
for `q`, or an inner mapping without the key `c`), `processString (p ++ c ++ r)`
returns `accepted = false`, the message "No transition from q on c" and the
trace of the run over `p` alone. -/
theorem processString_no_transition (D : DFA) (p r : String) (c : Char) (q : String)
    (hp : noFailure (D.processString p))
    (hq : (D.processString p).trace.getLast? = some q)
    (hc : c.toString ∈ D.alphabet)
    (hno : D.transitions.lookup q = none ∨
      ∃ inner, D.transitions.lookup q = some inner ∧ inner.lookup c.toString = none) :
    D.processString (p ++ c.toString ++ r) =
      ⟨false, (D.processString p).trace,
        "No transition from " ++ q ++ " on " ++ c.toString⟩ := by
  have hnone : D.lookupNext q c.toString = none := by
    unfold DFA.lookupNext
    rcases hno with h | ⟨inner, h, h2⟩
    · simp [h]
    · simp [h, h2]
  unfold DFA.processString at *
  rw [data_snoc]
  rcases loop_append D p.data D.startState [D.startState] with
    ⟨hf, -⟩ | ⟨-, q2, ext, h1, h2, h3⟩
  · exact absurd hp hf
  · rw [h1, loop_nil] at hq
    simp only [List.singleton_append] at hq
    rw [h2] at hq
    cases hq
    rw [h3, h1, loop_nil]
    rcases loop_cons_cases D q ([D.startState] ++ ext) c r.data with
      ⟨ha, -⟩ | ⟨-, -, h⟩ | ⟨m, -, hm, -, -⟩
    · exact absurd hc ha
    · exact h
    · rw [hnone] at hm
      cases hm

/-- C5: the trace returned by `processString s` has at most `len(s) + 1`
elements; it has exactly `len(s) + 1` elements if and only if the message is
"Accepted" or "Rejected", which is the case if and only if the message is not an
"Invalid symbol: …" or "No transition from …" message. -/
theorem processString_trace_length (D : DFA) (s : String) :
    (D.processString s).trace.length ≤ s.length + 1 ∧
    ((D.processString s).trace.length = s.length + 1 ↔ noFailure (D.processString s)) ∧
    (noFailure (D.processString s) ↔ ¬ failureMessage (D.processString s).message) := by
  unfold DFA.processString
  obtain ⟨ext, h1, h2, h3, h4⟩ := loop_trace D s.data D.startState [D.startState]
  refine ⟨?_, ?_, h4⟩
  · rw [h1]
    simp only [List.length_append, List.length_singleton, String.length]
    omega
  · rw [← h3, h1]
    simp only [List.length_append, List.length_singleton, String.length]
    omega

/-- C6: for every string made only of the characters '0' and '1', the "Even
Ones" automaton accepts exactly when the string has an even number of '1'
characters; it accepts "00", "11" and "0110" with traces [q0,q0,q0], [q0,q1,q0]
and [q0,q0,q1,q0,q0], and rejects "1" with trace [q0,q1]. -/
theorem evenOnes_accepts_iff (s : String) (h : ∀ c ∈ s.data, c = '0' ∨ c = '1') :
    ((evenOnes.processString s).accepted = true ↔ Even (s.data.count '1')) ∧
    evenOnes.processString "00" = ⟨true, ["q0", "q0", "q0"], "Accepted"⟩ ∧
    evenOnes.processString "11" = ⟨true, ["q0", "q1", "q0"], "Accepted"⟩ ∧
    evenOnes.processString "0110" = ⟨true, ["q0", "q0", "q1", "q0", "q0"], "Accepted"⟩ ∧
    evenOnes.processString "1" = ⟨false, ["q0", "q1"], "Rejected"⟩ :=
  ⟨(evenOnes_loop s.data h ["q0"]).1, by decide, by decide, by decide, by decide⟩

/-- C7: if `processString s` returns `accepted = true`, the last element of the
returned trace is a member of `finalStates` and the message is "Accepted". -/
theorem processString_accepted (D : DFA) (s : String)
    (h : (D.processString s).accepted = true) :
    (∃ q, (D.processString s).trace.getLast? = some q ∧ q ∈ D.finalStates) ∧
    (D.processString s).message = "Accepted" := by
  unfold DFA.processString at *
  have hnf := loop_accepted_noFailure D s.data _ _ h
  rcases loop_append D s.data D.startState [D.startState] with ⟨hf, -⟩ | ⟨-, q, ext, h1, h2, -⟩
  · exact absurd hnf hf
  · rw [h1, loop_nil] at h ⊢
    simp only at h
    have hq : q ∈ D.finalStates := by simpa using h
    exact ⟨⟨q, by simpa using h2, hq⟩, by simp [hq]⟩

/-- C8: the trace returned by `processString s` is non-empty and its first
element is `startState`, for every definition and every input. -/
theorem processString_trace_head (D : DFA) (s : String) :
    (D.processString s).trace ≠ [] ∧
    (D.processString s).trace.head? = some D.startState := by
  unfold DFA.processString
  obtain ⟨ext, h1, -⟩ := loop_trace D s.data D.startState [D.startState]
  rw [h1]
  simp

/-- C9: on the empty input `processString` returns the trace `[startState]`,
`accepted` equal to the membership of `startState` in `finalStates`, and the
message "Accepted" when accepted and "Rejected" otherwise. -/
theorem processString_empty (D : DFA) :
    (D.processString "").trace = [D.startState] ∧
    (D.processString "").accepted = decide (D.startState ∈ D.finalStates) ∧
    (D.processString "").message =
      if (D.processString "").accepted = true then "Accepted" else "Rejected" := by
  refine ⟨rfl, ?_, rfl⟩
  show D.finalStates.contains D.startState = _
  simp

/-- C10: the trace of `processString s` is a prefix of the trace of
`processString (s ++ t)`, and when the run over `s` ends with an "Invalid
symbol" or "No transition" message, `processString (s ++ t)` returns the very
same result as `processString s`. -/
theorem processString_append (D : DFA) (s t : String) :
    (D.processString s).trace <+: (D.processString (s ++ t)).trace ∧
    (failureMessage (D.processString s).message →
      D.processString (s ++ t) = D.processString s) := by
  unfold DFA.processString
  rw [String.data_append]
  obtain ⟨_, -, -, -, h4⟩ := loop_trace D s.data D.startState [D.startState]
  rcases loop_append D s.data D.startState [D.startState] with ⟨-, hr⟩ | ⟨hnf, q, ext, h1, -, h3⟩
  · rw [hr]
    exact ⟨List.prefix_refl _, fun _ => rfl⟩
  · refine ⟨?_, fun hfail => absurd hfail (h4.1 hnf)⟩
    rw [h3, h1, loop_nil]
    obtain ⟨ext2, h5, -⟩ := loop_trace D t.data q ([D.startState] ++ ext)
    rw [h5]
    exact List.prefix_append _ _

/-! ## Instances of the conditional statements -/

/-- C3 at the "Even Ones" automaton with prefix "1", symbol '2' and remainder "0". -/
theorem processString_invalid_symbol_witness :
    noFailure (evenOnes.processString "1") ∧ ('2').toString ∉ evenOnes.alphabet ∧
    evenOnes.processString ("1" ++ ('2').toString ++ "0") =
      ⟨false, (evenOnes.processString "1").trace, "Invalid symbol: " ++ ('2').toString⟩ :=
  ⟨by decide, by decide,
    processString_invalid_symbol evenOnes "1" "0" '2' (by decide) (by decide)⟩

/-- C4 at `partialTable` with prefix "a", which ends in `q1`, a state without an
inner mapping, symbol 'a' and remainder "b". -/
theorem processString_no_transition_witness :
    noFailure (partialTable.processString "a") ∧
    (partialTable.processString "a").trace.getLast? = some "q1" ∧
    ('a').toString ∈ partialTable.alphabet ∧
    partialTable.transitions.lookup "q1" = none ∧
    partialTable.processString ("a" ++ ('a').toString ++ "b") =
      ⟨false, (partialTable.processString "a").trace,
        "No transition from " ++ "q1" ++ " on " ++ ('a').toString⟩ :=
  ⟨by decide, by decide, by decide, by decide,
    processString_no_transition partialTable "a" "b" 'a' "q1" (by decide) (by decide)
      (by decide) (Or.inl (by decide))⟩

/-- C6 at the input "101". -/
theorem evenOnes_accepts_iff_witness :
    (∀ c ∈ "101".data, c = '0' ∨ c = '1') ∧
    ((evenOnes.processString "101").accepted = true ↔ Even ("101".data.count '1')) :=
  ⟨by decide, (evenOnes_accepts_iff "101" (by decide)).1⟩

/-- C7 at the "Even Ones" automaton and the input "11". -/
theorem processString_accepted_witness :
    (evenOnes.processString "11").accepted = true ∧
    (∃ q, (evenOnes.processString "11").trace.getLast? = some q ∧ q ∈ evenOnes.finalStates) ∧
    (evenOnes.processString "11").message = "Accepted" :=
  ⟨by decide, processString_accepted evenOnes "11" (by decide)⟩

/-- C10 at the "Even Ones" automaton with "12", which halts on '2', followed by "0". -/
theorem processString_append_witness :
    failureMessage (evenOnes.processString "12").message ∧
    evenOnes.processString ("12" ++ "0") = evenOnes.processString "12" :=
  ⟨by decide, (processString_append evenOnes "12" "0").2 (by decide)⟩

end DFAAutomata
